import Mathlib

/-!
Verification of the `bb-tools` texture pipeline (`src/texture.rs`).

The Rust code is shallowly embedded below:
* `u8`/`u16`/`u64` machine integers become `Nat` with explicit `% 2 ^ w`
  wherever the source can wrap (release-build wrapping semantics);
* `f32` arithmetic is modelled exactly: every `f32` value occurring in this
  program is a nonnegative dyadic rational, represented by a numerator /
  denominator pair of naturals, and each `f32` operation performs the exact
  rational operation followed by IEEE-754 binary32 round-to-nearest-even
  (`roundF32P`).  All values produced by the program lie well inside the
  normal range of `binary32`, so this model coincides with the machine;
* fallible operations (`Result`, `unwrap`, indexing that can panic) return
  `Except`/`Option`, with `none`/`.error` standing for the failing outcome;
* `SmallRng` is modelled as an abstract deterministic stream seeded by a
  64-bit value: a uniform draw from `[lo, hi]` is `lo + raw % (hi + 1 - lo)`.
  Every claim below either pins the noise range to the singleton `[0, 0]`
  (where any generator must return `lo`) or only inspects the stored seed,
  so no property depends on the concrete `SmallRng` output stream;
* `thread_rng().gen_range(1..u64::MAX)` (auto-seeding) is modelled by an
  explicit entropy parameter mapped into `[1, 2 ^ 64 - 2]`, the exact range
  the source draws from.
-/

/-! ### Exact model of IEEE-754 binary32 rounding (round to nearest, ties to even) -/

/-- Fuel-driven floor of the base-2 logarithm of a natural number. -/
def lg2Aux : ℕ → ℕ → ℕ
  | 0, _ => 0
  | f + 1, n => if 2 ≤ n then lg2Aux f (n / 2) + 1 else 0

/-- Floor of the base-2 logarithm (`lg2 0 = lg2 1 = 0`). -/
def lg2 (n : ℕ) : ℕ := lg2Aux n n

/-- Floor of the base-2 logarithm of the positive rational `a / b`
(requires `1 ≤ a` and `1 ≤ b`). -/
def floorLog2Pair (a b : ℕ) : ℤ :=
  if b ≤ a then (lg2 (a / b) : ℤ)
  else
    (let k : ℕ := lg2 (b / a)
     if b = a * 2 ^ k then -(k : ℤ) else -((k : ℤ) + 1))

/-- Round `n / d` to the nearest integer, ties to even. -/
def roundHalfEven (n d : ℕ) : ℕ :=
  let m0 : ℕ := n / d
  let r : ℕ := n % d
  if d < 2 * r then m0 + 1
  else if 2 * r < d then m0
  else if m0 % 2 = 0 then m0 else m0 + 1

/-- A nonnegative `f32` value, represented exactly as `num / den`.  Every
operation below keeps `den` a positive power of two. -/
structure F32 where
  num : ℕ
  den : ℕ
deriving DecidableEq, Repr

/-- Round the exact nonnegative rational `a / b` to the nearest IEEE-754
binary32 value (ties to even).  Faithful for results inside the normal
range of `binary32`; every value rounded in this file lies well inside it. -/
def roundF32P (a b : ℕ) : F32 :=
  if a = 0 then ⟨0, 1⟩
  else
    let e : ℤ := floorLog2Pair a b
    let s : ℤ := 23 - e
    let n' : ℕ := if 0 ≤ s then a * 2 ^ s.toNat else a
    let d' : ℕ := if 0 ≤ s then b else b * 2 ^ (-s).toNat
    let m : ℕ := roundHalfEven n' d'
    if 23 ≤ e then ⟨m * 2 ^ (e - 23).toNat, 1⟩ else ⟨m, 2 ^ (23 - e).toNat⟩

/-- Exact conversion of a small natural into `f32` (`u8`/`u16` into `f32`
conversions are exact since such values are below `2 ^ 24`). -/
def F32.ofNat (n : ℕ) : F32 := ⟨n, 1⟩

/-- `f32` multiplication: exact product, then one rounding. -/
def F32.mul (x y : F32) : F32 := roundF32P (x.num * y.num) (x.den * y.den)

/-- `f32` division: exact quotient, then one rounding. -/
def F32.div (x y : F32) : F32 := roundF32P (x.num * y.den) (x.den * y.num)

/-- `f32::floor` combined with `as`-conversion to an unsigned integer:
the exact floor of the (nonnegative) value. -/
def F32.floorN (x : F32) : ℕ := x.num / x.den

/-- `f32::ceil` combined with `as`-conversion to an unsigned integer:
the exact ceiling of the (nonnegative) value. -/
def F32.ceilN (x : F32) : ℕ := (x.num + x.den - 1) / x.den

/-- The `f32` literal `0.01` appearing in `Series::with_blending`: the
binary32 value nearest to 1/100. -/
def lit001 : F32 := roundF32P 1 100

/-! ### Decimal rendering and parsing of `u8` values -/

/-- The decimal digit characters. -/
def digitChar (d : ℕ) : Char :=
  if d = 0 then '0' else if d = 1 then '1' else if d = 2 then '2'
  else if d = 3 then '3' else if d = 4 then '4' else if d = 5 then '5'
  else if d = 6 then '6' else if d = 7 then '7' else if d = 8 then '8' else '9'

/-- Fuel-driven decimal rendering accumulator. -/
def natDigitsAux : ℕ → ℕ → List Char → List Char
  | 0, _, acc => acc
  | f + 1, n, acc =>
    if n < 10 then digitChar n :: acc
    else natDigitsAux f (n / 10) (digitChar (n % 10) :: acc)

/-- Canonical decimal rendering of a natural number, as Rust's `Display`
for unsigned integers produces it. -/
def natDigits (n : ℕ) : List Char := natDigitsAux (n + 1) n []

/-- Rust's `str::parse::<u8>`: optional leading `+`, one or more ASCII
digits, value below 256; anything else is a parse error. -/
def parseU8 (l : List Char) : Option ℕ :=
  let t : List Char :=
    match l with
    | '+' :: r => r
    | _ => l
  if t = [] then none
  else if t.all (fun c => c.isDigit) then
    (let v : ℕ := t.foldl (fun a c => a * 10 + (c.toNat - 48)) 0
     if v < 256 then some v else none)
  else none

/-! ### Rust `str::split` on a single character and on the two-character
pattern `".."`, over `List Char` -/

/-- Prepend a character to the first segment of a split result. -/
def consHead (x : Char) : List (List Char) → List (List Char)
  | [] => [[x]]
  | h :: t => (x :: h) :: t

/-- `value.split(c)`: split on every occurrence of the character `c`;
always returns at least one (possibly empty) segment. -/
def splitChar (c : Char) : List Char → List (List Char)
  | [] => [[]]
  | x :: xs =>
    if x = c then [] :: splitChar c xs
    else consHead x (splitChar c xs)

/-- `range.split("..")`: split on each non-overlapping occurrence of `..`,
scanning left to right. -/
def splitDots : List Char → List (List Char)
  | [] => [[]]
  | [x] => [[x]]
  | x :: y :: rest =>
    if x = '.' ∧ y = '.' then [] :: splitDots rest
    else consHead x (splitDots (y :: rest))

/-! ### The data model of `texture.rs` -/

/-- `RangeInclusive<u8>`: inclusive bounds. -/
structure Range8 where
  start : ℕ
  stop : ℕ
deriving DecidableEq, Repr

/-- `Step`: a named inclusive sub-range of the grayscale domain. -/
structure Step where
  name : List Char
  range : Range8
deriving DecidableEq, Repr

/-- `StepError::ParseError(String)`. -/
inductive StepError where
  | parseError (text : List Char)
deriving DecidableEq, Repr

/-- `TextureError`. -/
inductive TextureError where
  | blendingOutOfRange (value : ℕ)
  | partialRange
deriving DecidableEq, Repr

/-- `Display for Step`: renders `name:start..end`. -/
def Step.render (st : Step) : List Char :=
  st.name ++ ':' :: natDigits st.range.start ++ '.' :: '.' :: natDigits st.range.stop

/-- `TryFrom<&str> for Step`: split on `:` into exactly two segments, split
the second on `..` into exactly two segments, parse both as `u8`.  No
`start ≤ end` validation is performed. -/
def Step.tryFrom (value : List Char) : Except StepError Step :=
  match splitChar ':' value with
  | [tile, range] =>
    match splitDots range with
    | [startStr, endStr] =>
      match parseU8 startStr with
      | none => .error (.parseError value)
      | some startV =>
        match parseU8 endStr with
        | none => .error (.parseError value)
        | some endV => .ok ⟨tile, ⟨startV, endV⟩⟩
    | _ => .error (.parseError value)
  | _ => .error (.parseError value)

/-! ### The pseudo-random source

`SmallRng` is modelled as a deterministic stream: the state is the stored
64-bit seed plus a draw counter, and each draw produces some 64-bit raw
value and advances the counter.  `gen_range(lo..=hi)` maps a raw draw into
`[lo, hi]`; on a singleton range it returns `lo` for every state, which is
the only distributional fact any theorem below relies on. -/
structure SmallRng where
  sd : ℕ
  cnt : ℕ
deriving DecidableEq, Repr

/-- `SmallRng::seed_from_u64`. -/
def SmallRng.seedFromU64 (s : ℕ) : SmallRng := ⟨s % 2 ^ 64, 0⟩

/-- One raw 64-bit draw plus the successor state. -/
def SmallRng.next (r : SmallRng) : ℕ × SmallRng :=
  ((r.sd + r.cnt) % 2 ^ 64, ⟨r.sd, r.cnt + 1⟩)

/-- `rng.gen_range(lo..=hi)`: a uniform draw from the nonempty inclusive
range `[lo, hi]`. -/
def SmallRng.genRange (r : SmallRng) (lo hi : ℕ) : ℕ × SmallRng :=
  let p := r.next
  (lo + p.1 % (hi + 1 - lo), p.2)

/-- `Series`: an ordered collection of `Step`s plus blending state. -/
structure Series where
  series : List Step
  rng : SmallRng
  blending : Range8
  seed : ℕ
deriving DecidableEq, Repr

/-- `TryFrom<Vec<Step>> for Series`.  The coverage check folds
`u8::MAX.wrapping_sub(end - start + 1)` over all steps in wrapping `u8`
arithmetic (release-build semantics) and demands that the result wrap back
around to `u8::MAX`.  The `entropy` argument models the nondeterministic
`thread_rng().gen_range(1..u64::MAX)` used to auto-generate a seed: it is
mapped into `[1, 2 ^ 64 - 2]`, the exact range that call draws from. -/
def Series.tryFrom (value : List Step) (entropy : ℕ) : Except TextureError Series :=
  let range : ℕ := value.foldl
    (fun sum v => (sum + 256 - (((v.range.stop + 256 - v.range.start) % 256 + 1) % 256)) % 256)
    255
  if range ≠ 255 then .error .partialRange
  else
    let seed : ℕ := 1 + entropy % (2 ^ 64 - 2)
    .ok ⟨value, SmallRng.seedFromU64 seed, ⟨0, 0⟩, seed⟩

/-- `self.series.iter().enumerate().find(|(_, v)| v.range.contains(&value))`,
returning the index of the first step whose inclusive range contains
`value` (the accumulator `i` is the index of the head of the remaining
list). -/
def findStep (value : ℕ) : List Step → ℕ → Option ℕ
  | [], _ => none
  | st :: rest, i =>
    if st.range.start ≤ value ∧ value ≤ st.range.stop then some i
    else findStep value rest (i + 1)

/-- `Series::activate`.  If the blending range is nonempty
(`RangeInclusive::is_empty` is `start > end`, so `[0, 0]` is *nonempty*),
a noise draw is added with saturating `u8` addition.  The first matching
step's index is returned 1-based, cast `as u8` (wrapping); `none` models
the `unwrap` panic when no step contains the value.  The returned `Series`
carries the advanced generator state (the source mutates `self.rng`). -/
def Series.activate (s : Series) (value : ℕ) : Option (ℕ × Series) :=
  let vr : ℕ × SmallRng :=
    if ¬ s.blending.stop < s.blending.start then
      (let p := s.rng.genRange s.blending.start s.blending.stop
       (min (value + p.1) 255, p.2))
    else (value, s.rng)
  match findStep vr.1 s.series 0 with
  | none => none
  | some i => some ((i + 1) % 256, ⟨s.series, vr.2, s.blending, s.seed⟩)

/-- `Series::with_blending`.  Re-seeds only when the supplied seed is
nonzero; widens the factor to `u16` (`u16::from(factor) * u16::from(255)`,
which cannot wrap since `factor ≤ 255`, but the `% 2 ^ 16` reduction of the
machine type is kept), multiplies by the `f32` literal `0.01`, floors, and
converts `as u8` (saturating, as Rust float-to-int casts do). -/
def Series.withBlending (s : Series) (seed : ℕ) (factor : ℕ) : Series :=
  let s1 : Series :=
    if seed ≠ 0 then ⟨s.series, SmallRng.seedFromU64 seed, s.blending, seed⟩ else s
  let factor16 : ℕ := (factor * 255) % 2 ^ 16
  let factorF : F32 := (F32.ofNat factor16).mul lit001
  ⟨s1.series, s1.rng, ⟨0, min factorF.floorN 255⟩, s1.seed⟩

/-- `Series::blending` (the report accessor; named `blendingPercent` here
because the Lean field `blending` already carries the range): divides the
stored range end by `255.0` in `f32`, multiplies by `100.0`, takes the
ceiling and converts `as u8` (saturating). -/
def Series.blendingPercent (s : Series) : ℕ :=
  let f1 : F32 := (F32.ofNat s.blending.stop).div (F32.ofNat 255)
  let f2 : F32 := f1.mul (F32.ofNat 100)
  min f2.ceilN 255

/-- `Display for Series`: each step rendered canonically, each followed by
one space (including the last). -/
def seriesChars : List Step → List Char
  | [] => []
  | st :: rest => st.render ++ ' ' :: seriesChars rest

/-- `Series::as_lua_map` body: one `[i]="name",` fragment per step, indices
1-based in declaration order (`i` is the 0-based index of the head). -/
def luaMapAux : ℕ → List Step → List Char
  | _, [] => []
  | i, st :: rest =>
    '[' :: natDigits (i + 1) ++ ']' :: '=' :: '"' :: st.name ++ '"' :: ',' :: luaMapAux (i + 1) rest

/-- `Series::as_lua_map`: the brace-delimited legend. -/
def Series.asLuaMap (s : Series) : List Char :=
  '\x7b' :: luaMapAux 0 s.series ++ ['\x7d']

/-- `header_lua`: the provenance comment line (seed actually stored,
reported blending percentage, canonical step list). -/
def headerLua (s : Series) : List Char :=
  ("-- bb".data ++ " --seed ".data ++ natDigits s.seed)
    ++ (" --blending ".data ++ natDigits s.blendingPercent)
    ++ (" --steps ".data ++ seriesChars s.series)

/-- One grid row rendered for `mod.grid`: comma-terminated cell values. -/
def gridRowChars : List ℕ → List Char
  | [] => []
  | v :: rest => natDigits v ++ ',' :: gridRowChars rest

/-- All grid rows rendered for `mod.grid`: each row brace-delimited and
comma-terminated, in input row order. -/
def gridChars : List (List ℕ) → List Char
  | [] => []
  | row :: rest => '\x7b' :: gridRowChars row ++ '\x7d' :: ',' :: gridChars rest

/-- `to_lua`.  The source computes `width = grid.len()` (the number of
rows!) and `height = grid[0].len()`; the unconditional `grid[0]` indexing
panics on a grid with zero rows, which is modelled by `none`. -/
def toLua (grid : List (List ℕ)) (s : Series) : Option (List Char) :=
  match grid with
  | [] => none
  | g0 :: _ =>
    some (headerLua s ++ '\n' ::
      "local mod=\x7b\x7d;".data ++
      "mod.width=".data ++ natDigits grid.length ++ ';' ::
      "mod.height=".data ++ natDigits g0.length ++ ';' ::
      "mod.map=".data ++ s.asLuaMap ++ ';' ::
      "mod.grid=\x7b".data ++ gridChars grid ++ "\x7d;return mod".data)

/-! ### The `handle` pipeline (CLI parsing, image decoding and file output
are external collaborators; their already-validated results are the
arguments here) -/

/-- `activate` mapped across one row, threading the generator state in
left-to-right order. -/
def activateRow : Series → List ℕ → Option (List ℕ × Series)
  | s, [] => some ([], s)
  | s, v :: rest =>
    match s.activate v with
    | none => none
    | some (idx, s') =>
      match activateRow s' rest with
      | none => none
      | some (out, s'') => some (idx :: out, s'')

/-- `activate` mapped across the whole grid, rows outer, threading the
generator state in row-major order. -/
def activateGrid : Series → List (List ℕ) → Option (List (List ℕ) × Series)
  | s, [] => some ([], s)
  | s, row :: rest =>
    match activateRow s row with
    | none => none
    | some (outRow, s') =>
      match activateGrid s' rest with
      | none => none
      | some (outRest, s'') => some (outRow :: outRest, s'')

/-- `args.get_many::<String>("steps") ... collect::<Result<Vec<Step>, _>>()`:
parse every step string, aborting on the first failure. -/
def parseSteps : List (List Char) → Option (List Step)
  | [] => some []
  | s :: rest =>
    match Step.tryFrom s with
    | .error _ => none
    | .ok st =>
      match parseSteps rest with
      | none => none
      | some l => some (st :: l)

/-- The computational core of `texture::handle`: parse the steps, validate
the blending percentage, build the `Series`, apply blending, activate every
luminance cell in row-major order and serialize.  Returns the index grid
together with the output document; `none` models any fatal error. -/
def handle (stepStrs : List (List Char)) (blend seedArg : ℕ)
    (lum : List (List ℕ)) (entropy : ℕ) : Option (List (List ℕ) × List Char) :=
  match parseSteps stepStrs with
  | none => none
  | some steps =>
    if blend > 100 then none
    else
      match Series.tryFrom steps entropy with
      | .error _ => none
      | .ok series =>
        match activateGrid (series.withBlending seedArg blend) lum with
        | none => none
        | some (grid, series') =>
          match toLua grid series' with
          | none => none
          | some doc => some (grid, doc)

/-! ### Spec-side notions used to state the claims -/

/-- The inclusive range of a step as a finite set of luminance values. -/
def stepIcc (st : Step) : Finset ℕ := Finset.Icc st.range.start st.range.stop

/-- `RangeInclusive::contains`: membership of a value in a step's range. -/
def stepContains (st : Step) (v : ℕ) : Prop :=
  st.range.start ≤ v ∧ v ≤ st.range.stop

instance (st : Step) (v : ℕ) : Decidable (stepContains st v) :=
  inferInstanceAs (Decidable (_ ∧ _))

/-- The true width `end − start + 1` of a step's range (0 when reversed). -/
def stepWidth (st : Step) : ℕ := st.range.stop + 1 - st.range.start

/-- The width of a step's range as the coverage check of `Series::try_from`
computes it: `end - start + 1` in wrapping `u8` arithmetic. -/
def wrapWidth (st : Step) : ℕ :=
  ((st.range.stop + 256 - st.range.start) % 256 + 1) % 256

/-- A step whose bounds fit in `u8` (automatic in the Rust source from the
`u8` type of `RangeInclusive<u8>`). -/
def StepWF (st : Step) : Prop := st.range.start < 256 ∧ st.range.stop < 256

instance (st : Step) : Decidable (StepWF st) :=
  inferInstanceAs (Decidable (_ ∧ _))

/-- The coverage invariant of the specification: the total true width is
exactly 256 and no two step ranges overlap. -/
def coverageOK (steps : List Step) : Prop :=
  (steps.map stepWidth).sum = 256 ∧
  List.Pairwise (fun a b => stepIcc a ∩ stepIcc b = ∅) steps

instance (steps : List Step) : Decidable (coverageOK steps) :=
  inferInstanceAs (Decidable ((steps.map stepWidth).sum = 256 ∧
    List.Pairwise (fun a b => stepIcc a ∩ stepIcc b = ∅) steps))

/-! ### Concrete objects used by witnesses and counterexamples -/

/-- The step `dirt:0..127` of the end-to-end scenario. -/
def dirtStep : Step := ⟨"dirt".data, ⟨0, 127⟩⟩

/-- The step `grass:128..255` of the end-to-end scenario. -/
def grassStep : Step := ⟨"grass".data, ⟨128, 255⟩⟩

/-- The scenario series after `with_blending(42, 0)`. -/
def dgSeries : Series := ⟨[dirtStep, grassStep], SmallRng.seedFromU64 42, ⟨0, 0⟩, 42⟩

/-- A single step covering the whole domain. -/
def fullStep : Step := ⟨"f".data, ⟨0, 255⟩⟩

/-- A step with an empty (reversed) range: true width 0, wrapped width 0. -/
def voidStep : Step := ⟨"e".data, ⟨5, 4⟩⟩

/-- A valid series (coverage invariant holds) with 256 steps: 255 empty
steps followed by one full-domain step at 0-based index 255. -/
def wideSeries : Series :=
  ⟨List.replicate 255 voidStep ++ [fullStep], ⟨1, 0⟩, ⟨0, 0⟩, 1⟩

/-- A small valid base series used by blending witnesses. -/
def baseSeries : Series := ⟨[fullStep], ⟨1, 0⟩, ⟨0, 0⟩, 1⟩

/-- The step `a:0..100` of the gap example. -/
def gapStepA : Step := ⟨"a".data, ⟨0, 100⟩⟩

/-- The step `b:150..255` of the gap example. -/
def gapStepB : Step := ⟨"b".data, ⟨150, 255⟩⟩

/-! ### Characterization of the `Series::try_from` coverage check -/

/-- The wrapping fold of the coverage check, cast into `ZMod 256`: starting
from `a` it subtracts every wrapped width. -/
theorem wrapFold_cast (l : List Step) : ∀ a : ℕ,
    ((l.foldl (fun sum v =>
        (sum + 256 - (((v.range.stop + 256 - v.range.start) % 256 + 1) % 256)) % 256) a : ℕ)
      : ZMod 256)
      = (a : ZMod 256) - ((l.map wrapWidth).sum : ZMod 256) := by
  induction l with
  | nil => intro a; simp
  | cons x xs ih =>
    intro a
    rw [List.foldl_cons, ih]
    have h1 : ((a + 256 - (((x.range.stop + 256 - x.range.start) % 256 + 1) % 256)) % 256 : ℕ)
        = ((a + 256 - wrapWidth x) % 256 : ℕ) := rfl
    have hw : wrapWidth x < 256 := Nat.mod_lt _ (by norm_num)
    have hle : wrapWidth x ≤ a + 256 := by omega
    rw [h1, ZMod.natCast_mod, List.map_cons, List.sum_cons, Nat.cast_sub hle, Nat.cast_add,
      Nat.cast_add, ZMod.natCast_self]
    ring

/-- The wrapping fold stays below 256. -/
theorem wrapFold_lt (l : List Step) : ∀ a : ℕ, a < 256 →
    l.foldl (fun sum v =>
        (sum + 256 - (((v.range.stop + 256 - v.range.start) % 256 + 1) % 256)) % 256) a < 256 := by
  induction l with
  | nil => intro a h; exact h
  | cons x xs ih =>
    intro a _
    rw [List.foldl_cons]
    exact ih _ (Nat.mod_lt _ (by norm_num))

/-- `Series::try_from` succeeds exactly when the wrapped widths sum to a
multiple of 256, in which case the series carries the auto-generated seed;
otherwise it fails with `PartialRange`. -/
theorem tryFrom_eq (steps : List Step) (e : ℕ) :
    Series.tryFrom steps e =
      if (steps.map wrapWidth).sum % 256 = 0 then
        .ok ⟨steps, SmallRng.seedFromU64 (1 + e % (2 ^ 64 - 2)), ⟨0, 0⟩, 1 + e % (2 ^ 64 - 2)⟩
      else .error .partialRange := by
  have hdef : Series.tryFrom steps e =
      (if (steps.foldl (fun sum v =>
          (sum + 256 - (((v.range.stop + 256 - v.range.start) % 256 + 1) % 256)) % 256) 255) ≠ 255
        then .error .partialRange
        else .ok ⟨steps, SmallRng.seedFromU64 (1 + e % (2 ^ 64 - 2)), ⟨0, 0⟩,
          1 + e % (2 ^ 64 - 2)⟩) := rfl
  rw [hdef]
  have hlt : (steps.foldl (fun sum v =>
      (sum + 256 - (((v.range.stop + 256 - v.range.start) % 256 + 1) % 256)) % 256) 255) < 256 :=
    wrapFold_lt steps 255 (by norm_num)
  have hcast := wrapFold_cast steps 255
  by_cases hS : (steps.map wrapWidth).sum % 256 = 0
  · have hz : ((steps.map wrapWidth).sum : ZMod 256) = 0 := by
      rw [ZMod.natCast_zmod_eq_zero_iff_dvd]
      exact Nat.dvd_of_mod_eq_zero hS
    have h255 : (steps.foldl (fun sum v =>
        (sum + 256 - (((v.range.stop + 256 - v.range.start) % 256 + 1) % 256)) % 256) 255) = 255 := by
      have hv : ((steps.foldl (fun sum v =>
          (sum + 256 - (((v.range.stop + 256 - v.range.start) % 256 + 1) % 256)) % 256) 255 : ℕ)
            : ZMod 256) = ((255 : ℕ) : ZMod 256) := by
        rw [hcast, hz]; ring
      have := congrArg ZMod.val hv
      rwa [ZMod.val_cast_of_lt hlt, ZMod.val_cast_of_lt (by norm_num)] at this
    rw [if_pos hS, h255]
    simp
  · have hne : (steps.foldl (fun sum v =>
        (sum + 256 - (((v.range.stop + 256 - v.range.start) % 256 + 1) % 256)) % 256) 255) ≠ 255 := by
      intro h255
      apply hS
      have hv := hcast
      rw [h255] at hv
      have hz : ((steps.map wrapWidth).sum : ZMod 256) = 0 := by
        have := sub_eq_self.mp hv.symm
        exact this
      rw [ZMod.natCast_zmod_eq_zero_iff_dvd] at hz
      exact Nat.mod_eq_zero_of_dvd hz
    rw [if_neg hS, if_pos hne]

/-! ### Structural lemmas about the split functions -/

theorem consHead_ne_nil (x : Char) (l : List (List Char)) : consHead x l ≠ [] := by
  cases l <;> simp [consHead]

theorem splitChar_ne_nil (c : Char) (l : List Char) : splitChar c l ≠ [] := by
  cases l with
  | nil => simp [splitChar]
  | cons x xs =>
    simp only [splitChar]
    by_cases hx : x = c
    · simp [hx]
    · simp only [if_neg hx]
      exact consHead_ne_nil x _

/-- No segment produced by `splitChar c` contains `c`. -/
theorem mem_splitChar (c : Char) : ∀ (l : List Char) (x : List Char),
    x ∈ splitChar c l → c ∉ x := by
  intro l
  induction l with
  | nil =>
    intro x hx
    simp only [splitChar, List.mem_singleton] at hx
    subst hx
    simp
  | cons y ys ih =>
    intro x hx
    simp only [splitChar] at hx
    by_cases hy : y = c
    · rw [if_pos hy] at hx
      rcases List.mem_cons.mp hx with rfl | hx
      · simp
      · exact ih x hx
    · rw [if_neg hy] at hx
      cases h : splitChar c ys with
      | nil => exact absurd h (splitChar_ne_nil c ys)
      | cons hd tl =>
        rw [h] at hx
        simp only [consHead] at hx
        rcases List.mem_cons.mp hx with rfl | hx
        · intro hc
          rcases List.mem_cons.mp hc with hc | hc
          · exact hy hc.symm
          · exact ih hd (by rw [h]; exact List.mem_cons_self hd tl) hc
        · exact ih x (by rw [h]; exact List.mem_cons_of_mem hd hx)

/-- Splitting a list that does not contain the separator yields the list
itself as the only segment. -/
theorem splitChar_no (c : Char) (l : List Char) (h : c ∉ l) : splitChar c l = [l] := by
  induction l with
  | nil => rfl
  | cons x xs ih =>
    have hx : ¬ (x = c) := by
      intro he
      exact h (by rw [he]; exact List.mem_cons_self c xs)
    have hxs : c ∉ xs := fun hm => h (List.mem_cons_of_mem x hm)
    simp only [splitChar, if_neg hx, ih hxs, consHead]

/-- Splitting around the first separator occurrence. -/
theorem splitChar_append (c : Char) (l1 l2 : List Char) (h : c ∉ l1) :
    splitChar c (l1 ++ c :: l2) = l1 :: splitChar c l2 := by
  induction l1 with
  | nil => simp [splitChar]
  | cons x xs ih =>
    have hx : ¬ (x = c) := by
      intro he
      exact h (by rw [he]; exact List.mem_cons_self c xs)
    have hxs : c ∉ xs := fun hm => h (List.mem_cons_of_mem x hm)
    rw [List.cons_append]
    have e1 : splitChar c (x :: (xs ++ c :: l2))
        = if x = c then [] :: splitChar c (xs ++ c :: l2)
          else consHead x (splitChar c (xs ++ c :: l2)) := rfl
    rw [e1, if_neg hx, ih hxs]
    rfl

/-- A list without dots is a single `splitDots` segment. -/
theorem splitDots_no (l : List Char) (h : '.' ∉ l) : splitDots l = [l] := by
  induction l with
  | nil => rfl
  | cons x xs ih =>
    have hx : ¬ (x = '.') := by
      intro he
      exact h (by rw [he]; exact List.mem_cons_self '.' xs)
    have hxs : '.' ∉ xs := fun hm => h (List.mem_cons_of_mem x hm)
    cases xs with
    | nil => rfl
    | cons y ys =>
      have hcond : ¬ (x = '.' ∧ y = '.') := fun hc => hx hc.1
      have e1 : splitDots (x :: y :: ys)
          = if x = '.' ∧ y = '.' then [] :: splitDots ys
            else consHead x (splitDots (y :: ys)) := rfl
      rw [e1, if_neg hcond, ih hxs]
      rfl

/-- Splitting around the first `..` occurrence when the prefix has no dot. -/
theorem splitDots_append (l1 l2 : List Char) (h : '.' ∉ l1) :
    splitDots (l1 ++ '.' :: '.' :: l2) = l1 :: splitDots l2 := by
  induction l1 with
  | nil => simp [splitDots]
  | cons x xs ih =>
    have hx : ¬ (x = '.') := by
      intro he
      exact h (by rw [he]; exact List.mem_cons_self '.' xs)
    have hxs : '.' ∉ xs := fun hm => h (List.mem_cons_of_mem x hm)
    have ih' := ih hxs
    rw [List.cons_append]
    cases xs with
    | nil =>
      rw [List.nil_append] at ih'
      have hcond : ¬ (x = '.' ∧ '.' = '.') := fun hc => hx hc.1
      have e1 : splitDots (x :: ([] ++ '.' :: '.' :: l2))
          = if x = '.' ∧ '.' = '.' then [] :: splitDots ('.' :: l2)
            else consHead x (splitDots ('.' :: '.' :: l2)) := rfl
      rw [e1, if_neg hcond, ih']
      rfl
    | cons z zs =>
      have hcond : ¬ (x = '.' ∧ z = '.') := fun hc => hx hc.1
      have e1 : splitDots (x :: (z :: zs ++ '.' :: '.' :: l2))
          = if x = '.' ∧ z = '.' then [] :: splitDots (zs ++ '.' :: '.' :: l2)
            else consHead x (splitDots (z :: zs ++ '.' :: '.' :: l2)) := rfl
      rw [e1, if_neg hcond, ih']
      rfl

/-! ### Parser round-trip lemmas -/

set_option maxRecDepth 4000 in
/-- The canonical decimal digits of a `u8` value contain neither `:` nor
`.` and parse back to the same value. -/
theorem natDigits_u8 : ∀ n, n < 256 →
    ':' ∉ natDigits n ∧ '.' ∉ natDigits n ∧ parseU8 (natDigits n) = some n := by decide

/-- Parsing the canonical rendering `name:a..b` of a `u8` step recovers
exactly that step (no `start ≤ end` validation happens). -/
theorem tryFrom_render (name : List Char) (a b : ℕ) (hn : ':' ∉ name)
    (ha : a < 256) (hb : b < 256) :
    Step.tryFrom (Step.render ⟨name, ⟨a, b⟩⟩) = .ok ⟨name, ⟨a, b⟩⟩ := by
  obtain ⟨hca, hda, hpa⟩ := natDigits_u8 a ha
  obtain ⟨hcb, hdb, hpb⟩ := natDigits_u8 b hb
  have hrest : ':' ∉ natDigits a ++ '.' :: '.' :: natDigits b := by
    intro hm
    rcases List.mem_append.mp hm with hm | hm
    · exact hca hm
    · rcases List.mem_cons.mp hm with hm | hm
      · exact absurd hm (by decide)
      · rcases List.mem_cons.mp hm with hm | hm
        · exact absurd hm (by decide)
        · exact hcb hm
  have h1 : splitChar ':' (name ++ ':' :: (natDigits a ++ '.' :: '.' :: natDigits b))
      = [name, natDigits a ++ '.' :: '.' :: natDigits b] := by
    rw [splitChar_append _ _ _ hn, splitChar_no _ _ hrest]
  have h2 : splitDots (natDigits a ++ '.' :: '.' :: natDigits b)
      = [natDigits a, natDigits b] := by
    rw [splitDots_append _ _ hda, splitDots_no _ hdb]
  have hgoal : Step.tryFrom (name ++ ':' :: (natDigits a ++ '.' :: '.' :: natDigits b))
      = .ok ⟨name, ⟨a, b⟩⟩ := by
    unfold Step.tryFrom
    simp only [h1, h2, hpa, hpb]
  simp only [Step.render, List.append_assoc, List.cons_append]
  exact hgoal

/-- A successfully parsed value is a `u8`. -/
theorem parseU8_lt (l : List Char) (v : ℕ) (h : parseU8 l = some v) : v < 256 := by
  unfold parseU8 at h
  split at h
  all_goals
    dsimp only at h
    split at h
    · exact absurd h (by simp)
    · split at h
      · split at h
        · rename_i hlt
          injection h with h'
          omega
        · exact absurd h (by simp)
      · exact absurd h (by simp)

/-- Facts about any successfully parsed step: the name holds no colon and
both bounds are `u8` values. -/
theorem tryFrom_ok_facts (s : List Char) (st : Step) (h : Step.tryFrom s = .ok st) :
    ':' ∉ st.name ∧ st.range.start < 256 ∧ st.range.stop < 256 := by
  unfold Step.tryFrom at h
  split at h
  · rename_i tile range heq
    split at h
    · rename_i startStr endStr heq2
      split at h
      · exact absurd h (by simp)
      · rename_i a heqa
        split at h
        · exact absurd h (by simp)
        · rename_i b heqb
          have hst : st = ⟨tile, ⟨a, b⟩⟩ := by
            cases h
            rfl
          subst hst
          refine ⟨?_, parseU8_lt _ _ heqa, parseU8_lt _ _ heqb⟩
          exact mem_splitChar ':' s tile (by rw [heq]; exact List.mem_cons_self tile _)
    · exact absurd h (by simp)
  · exact absurd h (by simp)

/-! ### Coverage implies a unique containing step -/

theorem sum_map_get (g : Step → ℕ) (l : List Step) :
    ∑ i : Fin l.length, g (l.get i) = (l.map g).sum := by
  induction l with
  | nil => simp
  | cons x xs ih =>
    rw [List.map_cons, List.sum_cons, ← ih]
    simp only [List.length_cons]
    rw [Fin.sum_univ_succ]
    rfl

/-- Under the coverage invariant every `u8` value lies in exactly one
step's range. -/
theorem coverage_unique (steps : List Step) (hwf : ∀ st ∈ steps, StepWF st)
    (hcov : coverageOK steps) (v : ℕ) (hv : v < 256) :
    ∃ i, ∃ hi : i < steps.length,
      stepContains (steps.get ⟨i, hi⟩) v ∧
      ∀ j, ∀ hj : j < steps.length, stepContains (steps.get ⟨j, hj⟩) v → j = i := by
  classical
  obtain ⟨hsum, hdis⟩ := hcov
  have hpw : ∀ i j : Fin steps.length, i < j →
      stepIcc (steps.get i) ∩ stepIcc (steps.get j) = ∅ := by
    rw [List.pairwise_iff_get] at hdis
    exact fun i j h => hdis i j h
  have hdisj : ∀ i j : Fin steps.length, i ≠ j →
      Disjoint (stepIcc (steps.get i)) (stepIcc (steps.get j)) := by
    intro i j hne
    rcases lt_or_gt_of_ne hne with h | h
    · exact Finset.disjoint_iff_inter_eq_empty.mpr (hpw i j h)
    · exact (Finset.disjoint_iff_inter_eq_empty.mpr (hpw j i h)).symm
  have hcard :
      (Finset.univ.biUnion fun i : Fin steps.length => stepIcc (steps.get i)).card = 256 := by
    rw [Finset.card_biUnion (fun i _ j _ hne => hdisj i j hne)]
    have hc : ∀ i : Fin steps.length,
        (stepIcc (steps.get i)).card = stepWidth (steps.get i) := by
      intro i
      rw [stepIcc, Nat.card_Icc]
      rfl
    rw [Finset.sum_congr rfl (fun i _ => hc i), sum_map_get]
    exact hsum
  have hsub :
      (Finset.univ.biUnion fun i : Fin steps.length => stepIcc (steps.get i))
        ⊆ Finset.range 256 := by
    intro x hx
    rcases Finset.mem_biUnion.mp hx with ⟨i, _, hxi⟩
    rcases Finset.mem_Icc.mp hxi with ⟨_, hle⟩
    exact Finset.mem_range.mpr
      (lt_of_le_of_lt hle ((hwf _ (List.get_mem steps i.val i.isLt)).2))
  have hequ :
      (Finset.univ.biUnion fun i : Fin steps.length => stepIcc (steps.get i))
        = Finset.range 256 :=
    Finset.eq_of_subset_of_card_le hsub (by rw [hcard, Finset.card_range])
  have hvmem : v ∈ Finset.univ.biUnion fun i : Fin steps.length => stepIcc (steps.get i) := by
    rw [hequ]
    exact Finset.mem_range.mpr hv
  rcases Finset.mem_biUnion.mp hvmem with ⟨i, _, hvi⟩
  refine ⟨i.val, i.isLt, Finset.mem_Icc.mp hvi, ?_⟩
  intro j hj hcontj
  by_contra hne
  have hfne : (⟨j, hj⟩ : Fin steps.length) ≠ i := by
    intro he
    exact hne (congrArg Fin.val he)
  have hvj : v ∈ stepIcc (steps.get ⟨j, hj⟩) := Finset.mem_Icc.mpr hcontj
  exact Finset.disjoint_left.mp (hdisj ⟨j, hj⟩ i hfne) hvj hvi

/-- When a unique step contains `v`, the linear scan finds exactly it
(shifted by the accumulator). -/
theorem findStep_unique (v : ℕ) : ∀ (l : List Step) (i : ℕ) (hi : i < l.length),
    stepContains (l.get ⟨i, hi⟩) v →
    (∀ j, ∀ hj : j < l.length, stepContains (l.get ⟨j, hj⟩) v → j = i) →
    ∀ k, findStep v l k = some (k + i) := by
  intro l
  induction l with
  | nil =>
    intro i hi
    exact absurd hi (by simp)
  | cons st rest ih =>
    intro i hi hcont huniq k
    by_cases hst : st.range.start ≤ v ∧ v ≤ st.range.stop
    · have hi0 : (0 : ℕ) = i := huniq 0 (by simp) hst
      subst hi0
      simp only [findStep, if_pos hst, Nat.add_zero]
    · have hine : i ≠ 0 := by
        intro h0
        subst h0
        exact hst hcont
      obtain ⟨i', rfl⟩ : ∃ i', i = i' + 1 := ⟨i - 1, by omega⟩
      have hi' : i' < rest.length := by
        simp only [List.length_cons] at hi
        omega
      have hcont' : stepContains (rest.get ⟨i', hi'⟩) v := hcont
      have huniq' : ∀ j, ∀ hj : j < rest.length, stepContains (rest.get ⟨j, hj⟩) v → j = i' := by
        intro j hj hc
        have := huniq (j + 1) (by simp only [List.length_cons]; omega) hc
        omega
      have hres := ih i' hi' hcont' huniq' (k + 1)
      simp only [findStep, if_neg hst]
      rw [hres]
      congr 1
      omega

/-- A singleton-range draw returns its bound for every generator state. -/
theorem genRange_self (r : SmallRng) (lo : ℕ) :
    r.genRange lo lo = (lo, ⟨r.sd, r.cnt + 1⟩) := by
  unfold SmallRng.genRange SmallRng.next
  dsimp only
  rw [Nat.add_sub_cancel_left, Nat.mod_one, Nat.add_zero]

/-- With the blending range pinned to `[0, 0]`, `activate` degenerates to
the pure scan: the drawn offset is 0 whatever the generator state is. -/
theorem activate_zero (steps : List Step) (rng : SmallRng) (sd v : ℕ) (hv : v < 256) :
    Series.activate ⟨steps, rng, ⟨0, 0⟩, sd⟩ v
      = (findStep v steps 0).map
          (fun i => ((i + 1) % 256, (⟨steps, ⟨rng.sd, rng.cnt + 1⟩, ⟨0, 0⟩, sd⟩ : Series))) := by
  unfold Series.activate
  dsimp only
  rw [if_pos (by omega : ¬ (0 : ℕ) < 0), genRange_self]
  dsimp only
  rw [Nat.min_eq_left (by omega : v + 0 ≤ 255), Nat.add_zero]
  cases hf : findStep v steps 0 with
  | none => rfl
  | some i => rfl

/-! ### Claim C1 -/

/-- C1 counterexample: the step list `[a:0..127, b:0..127]` has overlapping
ranges (both contain 5) and true widths summing to exactly 256, so the
claim demands a `PartialRange` failure, yet `Series::try_from` succeeds:
the coverage check never tests for overlap. -/
theorem c1_counterexample :
    (Series.tryFrom [⟨"a".data, ⟨0, 127⟩⟩, ⟨"b".data, ⟨0, 127⟩⟩] 0).isOk = true
    ∧ stepContains ⟨"a".data, ⟨0, 127⟩⟩ 5
    ∧ stepContains ⟨"b".data, ⟨0, 127⟩⟩ 5
    ∧ ([⟨"a".data, ⟨0, 127⟩⟩, ⟨"b".data, ⟨0, 127⟩⟩].map stepWidth).sum = 256 :=
  ⟨rfl, by decide, by decide, by decide⟩

/-- C1 (amended): `Series::try_from` succeeds if and only if the widths
`end − start + 1`, computed in wrapping `u8` arithmetic, sum to a multiple
of 256; overlap between ranges is never checked.  Every failure is
`PartialRange`.  In particular the spec's acceptance example
`[0,127] + [128,255]` builds and its gap example `[0,100] + [150,255]`
fails with `PartialRange`. -/
theorem c1_coverage_check (steps : List Step) (e : ℕ) :
    ((Series.tryFrom steps e).isOk ↔ (steps.map wrapWidth).sum % 256 = 0)
    ∧ ((steps.map wrapWidth).sum % 256 ≠ 0 →
        Series.tryFrom steps e = .error .partialRange)
    ∧ (Series.tryFrom [dirtStep, grassStep] e).isOk = true
    ∧ Series.tryFrom [gapStepA, gapStepB] e = .error .partialRange := by
  refine ⟨?_, ?_, rfl, rfl⟩
  · rw [tryFrom_eq]
    by_cases h : (steps.map wrapWidth).sum % 256 = 0
    · simp [h, Except.isOk, Except.toBool]
    · simp [h, Except.isOk, Except.toBool]
  · intro h
    rw [tryFrom_eq, if_neg h]

/-- C1 witness: the gap example discharges the failure implication. -/
theorem c1_witness :
    (([gapStepA, gapStepB].map wrapWidth).sum % 256 ≠ 0)
    ∧ Series.tryFrom [gapStepA, gapStepB] 0 = .error .partialRange :=
  ⟨by decide, (c1_coverage_check [gapStepA, gapStepB] 0).2.1 (by decide)⟩

/-! ### Claim C2 -/

/-- C2 counterexample: the pipeline run of the end-to-end scenario does
produce the index matrix `[[1,2],[2,1]]`, but the output document does
*not* contain the exact text demanded by the claim: `as_lua_map` emits a
trailing comma after the last legend entry (`...,[2]="grass",}`), while
the claimed text has none. -/
theorem c2_counterexample :
    handle ["dirt:0..127".data, "grass:128..255".data] 0 42 [[0, 128], [255, 64]] 0
      = some ([[1, 2], [2, 1]],
        ("-- bb --seed 42 --blending 0 --steps dirt:0..127 grass:128..255 \nlocal mod=\x7b\x7d;mod.width=2;mod.height=2;mod.map=\x7b[1]=\"dirt\",[2]=\"grass\",\x7d;mod.grid=\x7b\x7b1,2,\x7d,\x7b2,1,\x7d,\x7d;return mod").data)
    ∧ ¬ ("mod.width=2;mod.height=2;mod.map=\x7b[1]=\"dirt\",[2]=\"grass\"\x7d;mod.grid=\x7b\x7b1,2,\x7d,\x7b2,1,\x7d,\x7d;").data
        <:+: ("-- bb --seed 42 --blending 0 --steps dirt:0..127 grass:128..255 \nlocal mod=\x7b\x7d;mod.width=2;mod.height=2;mod.map=\x7b[1]=\"dirt\",[2]=\"grass\",\x7d;mod.grid=\x7b\x7b1,2,\x7d,\x7b2,1,\x7d,\x7d;return mod").data :=
  ⟨rfl, by set_option maxRecDepth 100000 in decide⟩

/-- C2 (amended): for the end-to-end scenario (steps
`["dirt:0..127","grass:128..255"]`, blending 0, seed 42, luminance matrix
`[[0,128],[255,64]]`) the pipeline produces the index matrix
`[[1,2],[2,1]]` with legend entries `[1]="dirt"` and `[2]="grass"`, and
whatever the auto-seed entropy was, the output document contains exactly
the text
`mod.width=2;mod.height=2;mod.map={[1]="dirt",[2]="grass",};mod.grid={{1,2,},{2,1,},};`
(the legend carries a trailing comma after its last entry, as every
collection in the output grammar does). -/
theorem c2_end_to_end (e : ℕ) :
    handle ["dirt:0..127".data, "grass:128..255".data] 0 42 [[0, 128], [255, 64]] e
      = some ([[1, 2], [2, 1]],
        ("-- bb --seed 42 --blending 0 --steps dirt:0..127 grass:128..255 \nlocal mod=\x7b\x7d;mod.width=2;mod.height=2;mod.map=\x7b[1]=\"dirt\",[2]=\"grass\",\x7d;mod.grid=\x7b\x7b1,2,\x7d,\x7b2,1,\x7d,\x7d;return mod").data)
    ∧ ("mod.width=2;mod.height=2;mod.map=\x7b[1]=\"dirt\",[2]=\"grass\",\x7d;mod.grid=\x7b\x7b1,2,\x7d,\x7b2,1,\x7d,\x7d;").data
        <:+: ("-- bb --seed 42 --blending 0 --steps dirt:0..127 grass:128..255 \nlocal mod=\x7b\x7d;mod.width=2;mod.height=2;mod.map=\x7b[1]=\"dirt\",[2]=\"grass\",\x7d;mod.grid=\x7b\x7b1,2,\x7d,\x7b2,1,\x7d,\x7d;return mod").data := by
  have hwb : (⟨[dirtStep, grassStep], SmallRng.seedFromU64 (1 + e % (2 ^ 64 - 2)), ⟨0, 0⟩,
        1 + e % (2 ^ 64 - 2)⟩ : Series).withBlending 42 0
      = ⟨[dirtStep, grassStep], SmallRng.seedFromU64 42, ⟨0, 0⟩, 42⟩ := rfl
  constructor
  · unfold handle
    simp only [show parseSteps ["dirt:0..127".data, "grass:128..255".data]
        = some [dirtStep, grassStep] from rfl]
    simp only [show Series.tryFrom [dirtStep, grassStep] e
        = Except.ok ⟨[dirtStep, grassStep], SmallRng.seedFromU64 (1 + e % (2 ^ 64 - 2)), ⟨0, 0⟩,
            1 + e % (2 ^ 64 - 2)⟩ from rfl]
    simp only [hwb]
    rfl
  · exact ⟨("-- bb --seed 42 --blending 0 --steps dirt:0..127 grass:128..255 \nlocal mod=\x7b\x7d;").data,
      ("return mod").data, by rfl⟩

/-! ### Claim C3 -/

/-- C3: the code assigns `mod.width = grid.len()` (the number of rows) and
`mod.height = grid[0].len()` (the number of columns), the opposite of the
claim.  On the 1-row, 2-column index grid `[[1,2]]` the document reads
`mod.width=1;mod.height=2;`. -/
theorem c3_width_height_swapped :
    toLua [[1, 2]] dgSeries
      = some (("-- bb --seed 42 --blending 0 --steps dirt:0..127 grass:128..255 \nlocal mod=\x7b\x7d;").data
          ++ ("mod.width=1;mod.height=2;").data
          ++ ("mod.map=\x7b[1]=\"dirt\",[2]=\"grass\",\x7d;mod.grid=\x7b\x7b1,2,\x7d,\x7d;return mod").data) :=
  rfl

/-! ### Claim C4 -/

set_option maxRecDepth 16000 in
/-- C4 counterexample: `wideSeries` satisfies the coverage invariant (255
empty steps and one full step), its blending range is `[0, 0]`, and the
unique step containing the value 7 sits at 0-based index 255 — so the
claim demands the 1-based answer 256 — yet `activate` returns 0, because
`(index + 1) as u8` wraps. -/
theorem c4_counterexample :
    coverageOK wideSeries.series
    ∧ (∀ st ∈ wideSeries.series, StepWF st)
    ∧ wideSeries.blending = ⟨0, 0⟩
    ∧ wideSeries.series.length = 256
    ∧ (Series.activate wideSeries 7).map Prod.fst = some 0 :=
  ⟨by decide, by decide, rfl, by decide, by decide⟩

/-- C4 (amended): for every valid series (u8-typed steps, coverage
invariant) of at most 255 steps whose blending range is `[0, 0]`,
`activate v` returns the same value whatever the generator state and seed
are, namely `some (i + 1)` where `i` is the 0-based index of the unique
step containing `v`; with more than 255 steps the `as u8` cast makes the
result `(i + 1) % 256`.  For the scenario series the boundary values hold:
`activate 0 = 1`, `activate 127 = 1`, `activate 128 = 2`,
`activate 255 = 2`. -/
theorem c4_blending_disabled_purity :
    (∀ (steps : List Step) (rng₁ rng₂ : SmallRng) (sd₁ sd₂ v : ℕ),
      (∀ st ∈ steps, StepWF st) → coverageOK steps → steps.length ≤ 255 → v < 256 →
      ∃ i, ∃ hi : i < steps.length,
        stepContains (steps.get ⟨i, hi⟩) v
        ∧ (∀ j, ∀ hj : j < steps.length, stepContains (steps.get ⟨j, hj⟩) v → j = i)
        ∧ (Series.activate ⟨steps, rng₁, ⟨0, 0⟩, sd₁⟩ v).map Prod.fst = some (i + 1)
        ∧ (Series.activate ⟨steps, rng₂, ⟨0, 0⟩, sd₂⟩ v).map Prod.fst = some (i + 1))
    ∧ (Series.activate dgSeries 0).map Prod.fst = some 1
    ∧ (Series.activate dgSeries 127).map Prod.fst = some 1
    ∧ (Series.activate dgSeries 128).map Prod.fst = some 2
    ∧ (Series.activate dgSeries 255).map Prod.fst = some 2 := by
  refine ⟨?_, by decide, by decide, by decide, by decide⟩
  intro steps rng₁ rng₂ sd₁ sd₂ v hwf hcov hlen hv
  obtain ⟨i, hi, hcont, huniq⟩ := coverage_unique steps hwf hcov v hv
  have hfind := findStep_unique v steps i hi hcont huniq 0
  rw [Nat.zero_add] at hfind
  have hmod : (i + 1) % 256 = i + 1 := Nat.mod_eq_of_lt (by omega)
  refine ⟨i, hi, hcont, huniq, ?_, ?_⟩
  · rw [activate_zero steps rng₁ sd₁ v hv, hfind, Option.map_map]
    simp [hmod]
  · rw [activate_zero steps rng₂ sd₂ v hv, hfind, Option.map_map]
    simp [hmod]

/-- C4 witness: the scenario steps discharge every hypothesis at `v = 64`. -/
theorem c4_witness :
    ((∀ st ∈ [dirtStep, grassStep], StepWF st) ∧ coverageOK [dirtStep, grassStep])
    ∧ ∃ i, ∃ hi : i < ([dirtStep, grassStep] : List Step).length,
        stepContains (([dirtStep, grassStep] : List Step).get ⟨i, hi⟩) 64
        ∧ (∀ j, ∀ hj : j < ([dirtStep, grassStep] : List Step).length,
            stepContains (([dirtStep, grassStep] : List Step).get ⟨j, hj⟩) 64 → j = i)
        ∧ (Series.activate ⟨[dirtStep, grassStep], ⟨1, 2⟩, ⟨0, 0⟩, 9⟩ 64).map Prod.fst
            = some (i + 1)
        ∧ (Series.activate ⟨[dirtStep, grassStep], ⟨3, 4⟩, ⟨0, 0⟩, 10⟩ 64).map Prod.fst
            = some (i + 1) :=
  ⟨⟨by decide, by decide⟩,
    c4_blending_disabled_purity.1 [dirtStep, grassStep] ⟨1, 2⟩ ⟨3, 4⟩ 9 10 64
      (by decide) (by decide) (by decide) (by decide)⟩

/-! ### Claim C5 -/

set_option maxRecDepth 8000 in
/-- The `f32` computation of `with_blending` agrees with the exact
`floor(p * 255 / 100)` for every validated percentage, and that value is
zero exactly for `p = 0`. -/
theorem withBlending_key : ∀ p, p < 101 →
    min ((F32.ofNat ((p * 255) % 2 ^ 16)).mul lit001).floorN 255 = p * 255 / 100
    ∧ (p * 255 / 100 = 0 ↔ p = 0) := by decide

/-- C5: for every validated percentage `p ≤ 100`, `with_blending` sets the
noise range to `[0, K]` with `K = floor(p * 255 / 100)` — the widened
`u16` product and the `f32` multiplication by `0.01` introduce no error —
and `K = 0` exactly when `p = 0`. -/
theorem c5_blending_range (s : Series) (seed p : ℕ) (hp : p ≤ 100) :
    (s.withBlending seed p).blending = ⟨0, p * 255 / 100⟩
    ∧ (p * 255 / 100 = 0 ↔ p = 0) := by
  obtain ⟨hk, hz⟩ := withBlending_key p (by omega)
  refine ⟨?_, hz⟩
  unfold Series.withBlending
  dsimp only
  rw [hk]

/-- C5 witness: percentage 60 yields the noise range `[0, 153]`. -/
theorem c5_witness :
    60 ≤ 100 ∧ (baseSeries.withBlending 1 60).blending = ⟨0, 60 * 255 / 100⟩ :=
  ⟨by norm_num, (c5_blending_range baseSeries 1 60 (by norm_num)).1⟩

/-! ### Claim C6 -/

set_option maxRecDepth 8000 in
/-- The `f32` computation of the blending report: it equals the exact
`ceil(K * 100 / 255)` for every `K` except 153, where the two roundings
(`153 / 255` and `* 100`) land just above 60 and the ceiling becomes 61. -/
theorem blendingPercent_key : ∀ k, k < 256 →
    (k ≠ 153 → min (((F32.ofNat k).div (F32.ofNat 255)).mul (F32.ofNat 100)).ceilN 255
        = (k * 100 + 254) / 255)
    ∧ (k = 153 → min (((F32.ofNat k).div (F32.ofNat 255)).mul (F32.ofNat 100)).ceilN 255
        = 61) := by
  decide

/-- C6 counterexample: a series with stored noise range `[0, 153]` (as
produced by `with_blending` at 60%) reports blending 61, while the claimed
formula `ceil(153 * 100 / 255)` gives 60. -/
theorem c6_counterexample :
    (baseSeries.withBlending 1 60).blending.stop = 153
    ∧ (baseSeries.withBlending 1 60).blendingPercent = 61
    ∧ (153 * 100 + 254) / 255 = 60 :=
  ⟨by decide, by decide, by norm_num⟩

/-- C6 (amended): the reported blending percentage is the `f32` evaluation
of `ceil(K / 255 * 100)`; it equals the exact `ceil(K * 100 / 255)` for
every stored `K` except `K = 153`, where it reports 61, and the reported
value is what `header_lua` writes after `--blending`. -/
theorem c6_blending_report :
    (∀ s : Series, s.blending.stop < 256 → s.blending.stop ≠ 153 →
      s.blendingPercent = (s.blending.stop * 100 + 254) / 255)
    ∧ (∀ s : Series, s.blending.stop = 153 → s.blendingPercent = 61)
    ∧ (∀ s : Series, (" --blending ".data ++ natDigits s.blendingPercent) <:+: headerLua s) := by
  refine ⟨?_, ?_, ?_⟩
  · intro s hk hne
    have h := (blendingPercent_key s.blending.stop hk).1 hne
    unfold Series.blendingPercent
    dsimp only
    exact h
  · intro s h153
    have h := (blendingPercent_key 153 (by norm_num)).2 rfl
    unfold Series.blendingPercent
    dsimp only
    rw [h153]
    exact h
  · intro s
    refine ⟨"-- bb --seed ".data ++ natDigits s.seed,
      " --steps ".data ++ seriesChars s.series, ?_⟩
    unfold headerLua
    simp only [List.append_assoc]
    rfl

/-- C6 witness: a stored range end of 20 reports `ceil(20 * 100 / 255) = 8`. -/
theorem c6_witness :
    ((20 : ℕ) < 256 ∧ (20 : ℕ) ≠ 153)
    ∧ Series.blendingPercent ⟨[fullStep], ⟨1, 0⟩, ⟨0, 20⟩, 1⟩ = (20 * 100 + 254) / 255 :=
  ⟨⟨by norm_num, by norm_num⟩,
    c6_blending_report.1 ⟨[fullStep], ⟨1, 0⟩, ⟨0, 20⟩, 1⟩ (by norm_num) (by norm_num)⟩

/-! ### Claim C7 -/

/-- C7: `with_blending` stores exactly the supplied seed and re-seeds the
generator from it when the seed is nonzero, and keeps both the stored seed
and the generator untouched when the supplied seed is 0; and every series
built by `try_from` carries a nonzero auto-generated seed. -/
theorem c7_seed_handling :
    (∀ (s : Series) (sd factor : ℕ),
      (s.withBlending sd factor).seed = (if sd = 0 then s.seed else sd)
      ∧ (s.withBlending sd factor).rng
          = (if sd = 0 then s.rng else SmallRng.seedFromU64 sd))
    ∧ (∀ (steps : List Step) (e : ℕ) (sr : Series),
        Series.tryFrom steps e = .ok sr → sr.seed ≠ 0) := by
  constructor
  · intro s sd factor
    unfold Series.withBlending
    by_cases h : sd = 0
    · simp [h]
    · simp [h]
  · intro steps e sr h
    rw [tryFrom_eq] at h
    split at h
    · injection h with h'
      rw [← h']
      dsimp only
      omega
    · exact absurd h (by simp)

/-- C7 witness: entropy 5 auto-generates the nonzero seed 6. -/
theorem c7_witness :
    Series.tryFrom [fullStep] 5 = .ok ⟨[fullStep], SmallRng.seedFromU64 6, ⟨0, 0⟩, 6⟩
    ∧ (⟨[fullStep], SmallRng.seedFromU64 6, ⟨0, 0⟩, 6⟩ : Series).seed ≠ 0 :=
  ⟨rfl, c7_seed_handling.2 [fullStep] 5 _ rfl⟩

/-! ### Claim C8 -/

/-- C8 counterexample: the reversed-range step `r:255..0` parses
successfully, and the step list `[r:255..0, a:0..253]` containing it is
*not* caught by the coverage check: the wrapped width of `255..0` is 2, the
width of `0..253` is 254, the sum wraps to 0 and `Series::try_from`
succeeds instead of failing with `PartialRange`. -/
theorem c8_counterexample :
    Step.tryFrom ("r:255..0".data) = .ok ⟨"r".data, ⟨255, 0⟩⟩
    ∧ (Series.tryFrom [⟨"r".data, ⟨255, 0⟩⟩, ⟨"a".data, ⟨0, 253⟩⟩] 0).isOk = true :=
  ⟨rfl, rfl⟩

/-- C8 (amended): parsing performs no `start ≤ end` validation, so a
reversed range parses into the reversed `Step`; the later coverage check
computes widths in wrapping `u8` arithmetic, so a list containing a
reversed step fails with `PartialRange` exactly when the wrapped widths do
not sum to a multiple of 256 (for example `[a:200..100]` alone is caught),
but may also build successfully (for example `[r:255..0, a:0..253]`);
either way nothing crashes. -/
theorem c8_reversed_range (name : List Char) (a b : ℕ)
    (hn : ':' ∉ name) (ha : a < 256) (hb : b < 256) (_hba : b < a) :
    Step.tryFrom (Step.render ⟨name, ⟨a, b⟩⟩) = .ok ⟨name, ⟨a, b⟩⟩
    ∧ (∀ e, (Series.tryFrom [⟨"r".data, ⟨255, 0⟩⟩, ⟨"a".data, ⟨0, 253⟩⟩] e).isOk = true)
    ∧ (∀ e, Series.tryFrom [⟨"a".data, ⟨200, 100⟩⟩] e = .error .partialRange) :=
  ⟨tryFrom_render name a b hn ha hb, fun _ => rfl, fun _ => rfl⟩

/-- C8 witness: the reversed step `r:255..0` instantiates the parse half. -/
theorem c8_witness :
    (':' ∉ ("r".data) ∧ 255 < 256 ∧ 0 < 256 ∧ 0 < 255)
    ∧ Step.tryFrom (Step.render ⟨"r".data, ⟨255, 0⟩⟩) = .ok ⟨"r".data, ⟨255, 0⟩⟩ :=
  ⟨⟨by decide, by norm_num, by norm_num, by norm_num⟩,
    (c8_reversed_range ("r".data) 255 0 (by decide) (by norm_num) (by norm_num)
      (by norm_num)).1⟩

/-! ### Claim C9 -/

/-- C9: parsing a canonical `name:start..end` string (no colon in the
name, canonical decimal `u8` literals) and rendering the step reproduces
the input exactly; and every successfully parsed step re-parses from its
rendering to an identical step. -/
theorem c9_round_trip :
    (∀ (name : List Char) (a b : ℕ), ':' ∉ name → a < 256 → b < 256 →
      Step.tryFrom (Step.render ⟨name, ⟨a, b⟩⟩) = .ok ⟨name, ⟨a, b⟩⟩)
    ∧ (∀ (s : List Char) (st : Step), Step.tryFrom s = .ok st →
        Step.tryFrom st.render = .ok st) := by
  refine ⟨fun name a b hn ha hb => tryFrom_render name a b hn ha hb, ?_⟩
  intro s st h
  obtain ⟨hn, ha, hb⟩ := tryFrom_ok_facts s st h
  exact tryFrom_render st.name st.range.start st.range.stop hn ha hb

/-- C9 witness: the scenario step `dirt:0..127` round-trips. -/
theorem c9_witness :
    (':' ∉ ("dirt".data) ∧ 0 < 256 ∧ 127 < 256)
    ∧ Step.tryFrom (Step.render dirtStep) = .ok dirtStep :=
  ⟨⟨by decide, by norm_num, by norm_num⟩,
    c9_round_trip.1 ("dirt".data) 0 127 (by decide) (by norm_num) (by norm_num)⟩

/-! ### Claim C10 -/

/-- C10: `to_lua` unconditionally indexes the first grid row for the
height, so on a grid with zero rows it panics (modelled by `none`) rather
than returning an error value; on any nonempty grid it produces a
document. -/
theorem c10_empty_grid_panics :
    (∀ s : Series, toLua [] s = none)
    ∧ (∀ (s : Series) (g : List (List ℕ)), (toLua g s).isSome ↔ g ≠ []) := by
  constructor
  · intro s
    rfl
  · intro s g
    cases g with
    | nil => simp [toLua]
    | cons r rest => simp [toLua]
